import Mathlib

/-!
Verification of the `blind-threshold-sig` repository (a FROST-style
threshold Schnorr signature implementation) against its natural-language
specification.

Shallow embedding conventions:

 * The scalar field `ark_ed25519::Fr` is modelled by an arbitrary field `F`
   (with decidable equality); the spec treats the finite-field arithmetic as
   an external, correct primitive, and every algorithm in the repository is
   generic in that arithmetic.  Concrete witnesses instantiate `F` with the
   prime field `Zp` (integers mod 11) defined below.
 * The elliptic-curve group `EdwardsProjective` is modelled by a module `G`
   over `F`; `g * s` in Rust becomes `s • g`.
 * Byte strings are `List Nat`; the external SHA-512 function is a parameter
   `sha : List Nat → List Nat`, and the canonical serializations
   `serialize_compressed` of scalars and group elements are parameters
   `serF : F → List Nat` and `serG : G → List Nat`.
 * Rust code that can panic (`unwrap`, `NonZeroScalar::new`, field division)
   is modelled with `Option`: `none` models a panic.
 * `usize`/`u64` values are `Nat`; the conversion `ScalarField::from(i as u64)`
   takes the value mod `2 ^ 64` before casting into the field.
 * Randomness (`rand`, `test_rng`) is made explicit: random scalars drawn by
   the code are parameters of the embedded functions.
-/

/-- Bytes (as `Nat` code points) of an ASCII string literal. -/
def strBytes (s : String) : List Nat :=
  s.data.map Char.toNat

/-- `CONTEXT_STRING` from `src/ciphersuite.rs`. -/
def contextString : List Nat :=
  strBytes "FROST-ED25519-SHA512-v1"

/-- The byte string hashed by `H1` in `src/ciphersuite.rs`:
context string, then the tag `"rho"`, then the caller's input. -/
def H1input (m : List Nat) : List Nat :=
  contextString ++ strBytes "rho" ++ m

/-- The byte string hashed by `H2` in `src/ciphersuite.rs`: the caller's
input only (the code updates the hasher with `m` alone). -/
def H2input (m : List Nat) : List Nat :=
  m

/-- The byte string hashed by `H3` in `src/ciphersuite.rs`:
context string, then the tag `"nonce"`, then the caller's input. -/
def H3input (m : List Nat) : List Nat :=
  contextString ++ strBytes "nonce" ++ m

/-- The byte string hashed by `H4` in `src/ciphersuite.rs`:
context string, then the tag `"msg"`, then the caller's input. -/
def H4input (m : List Nat) : List Nat :=
  contextString ++ strBytes "msg" ++ m

/-- The byte string hashed by `H5` in `src/ciphersuite.rs`:
context string, then the tag `"com"`, then the caller's input. -/
def H5input (m : List Nat) : List Nat :=
  contextString ++ strBytes "com" ++ m

/-- `H1` from `src/ciphersuite.rs`, with the underlying SHA-512 as the
parameter `sha`. -/
def H1 (sha : List Nat → List Nat) (m : List Nat) : List Nat :=
  sha (H1input m)

/-- `H2` from `src/ciphersuite.rs`. -/
def H2 (sha : List Nat → List Nat) (m : List Nat) : List Nat :=
  sha (H2input m)

/-- `H3` from `src/ciphersuite.rs`. -/
def H3 (sha : List Nat → List Nat) (m : List Nat) : List Nat :=
  sha (H3input m)

/-- `H4` from `src/ciphersuite.rs`. -/
def H4 (sha : List Nat → List Nat) (m : List Nat) : List Nat :=
  sha (H4input m)

/-- `H5` from `src/ciphersuite.rs`. -/
def H5 (sha : List Nat → List Nat) (m : List Nat) : List Nat :=
  sha (H5input m)

/-- The byte string the spec claims `H2` hashes (context string, no tag,
then the input); stated only to compare with `H2input` above, which is what
the code actually hashes. -/
def H2claimedInput (m : List Nat) : List Nat :=
  contextString ++ m

/-- `2 ^ 64`, the modulus of the `usize`-to-`u64` conversion. -/
def U64MOD : Nat := 18446744073709551616

/-- `ScalarField::from(i as u64)` applied to a natural number. -/
def scalarFrom (F : Type) [NatCast F] (i : Nat) : F :=
  ((i % U64MOD : Nat) : F)

/-- `ScalarField::from_le_bytes_mod_order`: the little-endian value of the
byte string, reduced into the field. -/
def from_le_bytes_mod_order (F : Type) [NatCast F] (bs : List Nat) : F :=
  ((bs.foldr (fun b acc => b + 256 * acc) 0 : Nat) : F)

/-- `Option`-valued map over a list: the embedding of a Rust loop whose body
can panic.  `none` models a panic of some iteration. -/
def optionMap {α β : Type} (f : α → Option β) : List α → Option (List β)
  | [] => some []
  | a :: l => (f a).bind (fun b => (optionMap f l).map (fun bs => b :: bs))

section ShamirDefs

variable (F : Type) [Field F] [DecidableEq F]

/-- Evaluation `y = Σ_j coeff_j * x^j` of the polynomial given by `coeffs`,
as in the loop of `shamir_split` (`src/shamir.rs`). -/
def polyEval (coeffs : List F) (x : F) : F :=
  ∑ j ∈ Finset.range coeffs.length, coeffs.getD j 0 * x ^ j

/-- The share list `(1..=n).map (i ↦ (i, poly(i)))` built by `shamir_split`
(`src/shamir.rs` lines 23-35); `coeffs` is the full coefficient list
(constant term first). -/
def shamirShares (coeffs : List F) (n : Nat) : List (Nat × F) :=
  (List.range n).map (fun i => (i + 1, polyEval F coeffs (scalarFrom F (i + 1))))

/-- `shamir_split` from `src/shamir.rs`.  `rand` is the list of random
coefficients `a_1 .. a_{t-1}` drawn from the RNG; the two `assert!`s are
modelled by the `Option`. -/
def shamir_split (secret : F) (rand : List F) (t n : Nat) : Option (List (Nat × F)) :=
  if t ≤ n ∧ 2 ≤ t then some (shamirShares F (secret :: rand) n) else none

/-- The numerator `Π_{j ≠ i} (0 - x_j)` accumulated by the inner loop of
`shamir_reconstruct` (`src/shamir.rs` line 61). -/
def lagNum (shares : List (Nat × F)) (i : Fin shares.length) : F :=
  ∏ j ∈ Finset.univ.erase i, ((0 : F) - scalarFrom F (shares.get j).1)

/-- The denominator `Π_{j ≠ i} (x_i - x_j)` accumulated by the inner loop of
`shamir_reconstruct` (`src/shamir.rs` line 62). -/
def lagDen (shares : List (Nat × F)) (i : Fin shares.length) : F :=
  ∏ j ∈ Finset.univ.erase i, (scalarFrom F (shares.get i).1 - scalarFrom F (shares.get j).1)

/-- `shamir_reconstruct` from `src/shamir.rs`.  The `.inverse().unwrap()` on
a zero denominator panics, modelled by `none`. -/
def shamir_reconstruct (shares : List (Nat × F)) : Option F :=
  if ∀ i : Fin shares.length, lagDen F shares i ≠ 0 then
    some (∑ i : Fin shares.length,
      (shares.get i).2 * (lagNum F shares i * (lagDen F shares i)⁻¹))
  else none

end ShamirDefs

section HelperDefs

variable (F : Type) [Field F] [DecidableEq F]
variable (G : Type) [AddCommGroup G] [Module F G] [DecidableEq G]
variable (sha : List Nat → List Nat) (serF : F → List Nat) (serG : G → List Nat)

/-- `NonZeroScalar::new` from `src/helper.rs`: panics (`none`) on the zero
scalar, otherwise returns the value. -/
def nonZeroScalar_new (x : F) : Option F :=
  if x = 0 then none else some x

/-- `derive_interpolating_value` from `src/helper.rs`.  The loop skips every
entry equal to `x_i` (comparison by value) and accumulates
`numerator *= x_j`, `denominator *= x_j - x_i`; the final division panics
(`none`) when the denominator is zero. -/
def derive_interpolating_value (x_coordinates : List F) (x_i : F) : Option F :=
  let others := x_coordinates.filter (fun x_j => decide (¬ x_j = x_i))
  let numerator := others.prod
  let denominator := (others.map (fun x_j => x_j - x_i)).prod
  if denominator = 0 then none else some (numerator * denominator⁻¹)

/-- `encode_group_commitment_list` from `src/helper.rs`: concatenation of
`identifier ‖ D ‖ E` serializations in list order. -/
def encode_group_commitment_list (commitment_list : List (F × G × G)) : List Nat :=
  commitment_list.foldl
    (fun acc c => acc ++ (serF c.1 ++ serG c.2.1 ++ serG c.2.2)) []

/-- `binding_factor_for_participant` from `src/helper.rs`: first list entry
whose identifier matches; the `.unwrap()` on a missing identifier panics
(`none`). -/
def binding_factor_for_participant (binding_factor_list : List (F × F)) (identifier : F) :
    Option F :=
  (binding_factor_list.find? (fun b => decide (b.1 = identifier))).map (fun b => b.2)

/-- `compute_binding_factors` from `src/helper.rs`. -/
def compute_binding_factors (group_pk : G) (commitment_list : List (F × G × G))
    (msg : List Nat) : List (F × F) :=
  let rhoInputPref : List Nat :=
    serG group_pk ++ H4 sha msg ++
      H5 sha (encode_group_commitment_list F G serF serG commitment_list)
  commitment_list.foldl
    (fun acc c =>
      acc ++ [(c.1, from_le_bytes_mod_order F (H1 sha (rhoInputPref ++ serF c.1)))]) []

/-- `compute_group_commitment` from `src/helper.rs`:
`R = Σ (D_i + rho_i • E_i)`, where the binding-factor lookup panics
(`none`) on a missing identifier. -/
def compute_group_commitment (commitment_list : List (F × G × G))
    (binding_factor_list : List (F × F)) : Option G :=
  commitment_list.foldl
    (fun acc c =>
      acc.bind (fun R =>
        (binding_factor_for_participant F binding_factor_list c.1).map
          (fun rho => R + (c.2.1 + rho • c.2.2))))
    (some 0)

/-- `compute_challenge` from `src/helper.rs`:
`H2(encode(R) ‖ encode(group_pk) ‖ msg)` reduced to a scalar. -/
def compute_challenge (group_commitment : G) (group_pk : G) (msg : List Nat) : F :=
  from_le_bytes_mod_order F (H2 sha (serG group_commitment ++ serG group_pk ++ msg))

end HelperDefs

/-- `NonceCommitment` from `src/frost.rs`. -/
structure NonceCommitment (G : Type) where
  D : G
  E : G

/-- `SchnorrSignature` as used by `Frost::verify` (`src/schnorr.rs`). -/
structure SchnorrSignature (F : Type) (G : Type) where
  R : G
  s : F

/-- `FrostSigner` from `src/frost.rs`. -/
structure FrostSigner (F : Type) (G : Type) where
  identifier : F
  x : F
  d : F
  e : F
  commitment : NonceCommitment G
  rho : F

/-- `Frost` from `src/frost.rs`. -/
structure Frost (F : Type) (G : Type) where
  generator : G
  signers : List (FrostSigner F G)
  group_pk : G

section FrostDefs

variable (F : Type) [Field F] [DecidableEq F]
variable (G : Type) [AddCommGroup G] [Module F G] [DecidableEq G]
variable (sha : List Nat → List Nat) (serF : F → List Nat) (serG : G → List Nat)

/-- `FrostSigner::new` from `src/frost.rs`.  The two `nonce_generate` draws
are the explicit parameters `dDraw` and `eDraw` (the unused `seed` local of
the source is dropped); a blind signer keeps `e = 0`. -/
def FrostSigner.new (index : Nat) (x : F) (g : G) (is_blind : Bool)
    (dDraw eDraw : F) : FrostSigner F G :=
  let identifier : F := scalarFrom F index
  let d : F := dDraw
  let D : G := d • g
  let e : F := if is_blind then 0 else eDraw
  let E : G := e • g
  ⟨identifier, x, d, e, ⟨D, E⟩, 0⟩

/-- `FrostSigner::sign` from `src/frost.rs`:
`z_i = d + rho * e + lambda * x * challenge`, where `lambda` is the
interpolating value of this signer's identifier over `x_coordinates`;
`NonZeroScalar::new` and the interior division can panic (`none`). -/
def FrostSigner.sign (s : FrostSigner F G) (challenge : F) (x_coordinates : List F) :
    Option F :=
  (nonZeroScalar_new F s.identifier).bind fun id =>
    (derive_interpolating_value F x_coordinates id).map fun lambda =>
      s.d + s.rho * s.e + lambda * s.x * challenge

/-- `Frost::signature_share` from `src/frost.rs`.  The randomly drawn
`secret_key` and `generator` are the parameters `sk` and `g`; `rand` is the
random-coefficient list of the interior `shamir_split`; `dDraw i`/`eDraw i`
are the nonce draws of signer `i`.  Signers with index above the threshold
are blind. -/
def Frost.signature_share (sk : F) (g : G) (rand : List F) (dDraw eDraw : Nat → F)
    (threshold total_signers : Nat) : Option (Frost F G) :=
  (shamir_split F sk rand threshold total_signers).map fun shares =>
    ⟨g,
     shares.map (fun sh =>
       FrostSigner.new F G sh.1 sh.2 g (decide (threshold < sh.1)) (dDraw sh.1) (eDraw sh.1)),
     sk • g⟩

/-- `Frost::update_binding_factors` from `src/frost.rs`: every signer stores
the binding factor found for its identifier; a failed lookup or a zero
identifier panics (`none`). -/
def Frost.update_binding_factors (fr : Frost F G) (binding_factors : List (F × F)) :
    Option (Frost F G) :=
  (optionMap
      (fun s =>
        (nonZeroScalar_new F s.identifier).bind fun id =>
          (binding_factor_for_participant F binding_factors id).map fun rho =>
            { s with rho := rho })
      fr.signers).map
    fun sgs => { fr with signers := sgs }

/-- `Frost::signature_aggregate` from `src/frost.rs`: `z = Σ z_i` by a left
fold starting from zero. -/
def Frost.signature_aggregate (sig_shares : List F) : F :=
  sig_shares.foldl (fun z z_i => z + z_i) 0

/-- `Frost::verify` from `src/frost.rs`:
`g^s == R + group_pk * challenge`. -/
def Frost.verify (fr : Frost F G) (signature : SchnorrSignature F G) (challenge : F) :
    Bool :=
  decide (signature.s • fr.generator = signature.R + challenge • fr.group_pk)

/-- The end-to-end signing flow of `src/main.rs`, restricted to the subset
of signers with (1-based) indices in `idxs`: all `total_signers` signers
commit, the coordinator computes binding factors over the full commitment
list and distributes them, then the group commitment, challenge, Lagrange
coefficients and signature shares are computed over the chosen subset, the
shares are aggregated, and the result is verified.  Returns the group
commitment, the aggregate signature and the verification outcome. -/
def subsetSession (g : G) (sk : F) (rand : List F) (dDraw eDraw : Nat → F)
    (msg : List Nat) (threshold total_signers : Nat) (idxs : List Nat) :
    Option (G × F × Bool) := do
  let fr ← Frost.signature_share F G sk g rand dDraw eDraw threshold total_signers
  let cl ← optionMap
    (fun s =>
      (nonZeroScalar_new F s.identifier).map fun id => (id, s.commitment.D, s.commitment.E))
    fr.signers
  let bfl := compute_binding_factors F G sha serF serG fr.group_pk cl msg
  let fr2 ← fr.update_binding_factors F G bfl
  let subCl := cl.filter (fun c => decide (c.1 ∈ idxs.map (scalarFrom F)))
  let R ← compute_group_commitment F G subCl bfl
  let challenge := compute_challenge F G sha serG R fr.group_pk msg
  let xcoords := subCl.map (fun c => c.1)
  let subSigners := fr2.signers.filter (fun s => decide (s.identifier ∈ idxs.map (scalarFrom F)))
  let shares ← optionMap (fun s => s.sign F G challenge xcoords) subSigners
  let z := Frost.signature_aggregate F shares
  some (R, z, fr2.verify F G ⟨R, z⟩ challenge)

end FrostDefs

/-- Concrete 11-element prime field used by witnesses: `Fin 11` with a
kernel-computable inverse `a⁻¹ = a ^ 9` (Fermat). -/
def Zp : Type := Fin 11

instance : DecidableEq Zp := inferInstanceAs (DecidableEq (Fin 11))

instance : Fintype Zp := inferInstanceAs (Fintype (Fin 11))

instance : CommRing Zp := inferInstanceAs (CommRing (Fin 11))

instance : Field Zp :=
  { inferInstanceAs (CommRing Zp) with
    inv := fun a => a ^ 9
    exists_pair_ne := by decide
    mul_inv_cancel := by decide
    inv_zero := by decide
    nnqsmul := _
    nnqsmul_def := fun _ _ => rfl
    qsmul := _
    qsmul_def := fun _ _ => rfl }

/-- Value of a `Zp` element as a natural number (used by the concrete
witness serialisation). -/
def Zp.val (a : Zp) : Nat :=
  Fin.val a

/-- Concrete serialisation used by witnesses: a single byte. -/
def serZp : Zp → List Nat := fun a => [Zp.val a]

/-- Concrete stand-in for SHA-512 used by witnesses: the identity on byte
strings (the embedding only relies on the hash being a deterministic
function of its input). -/
def shaId : List Nat → List Nat := fun l => l

/-- The coefficient list `[c0, c1, ...]` as a `Polynomial` (proof-side
companion of `polyEval`). -/
noncomputable def pOf (F : Type) [Field F] (coeffs : List F) : Polynomial F :=
  ∑ j ∈ Finset.range coeffs.length, Polynomial.C (coeffs.getD j 0) * Polynomial.X ^ j

/-- `optionMap` succeeds and agrees with `List.map` when every element
succeeds. -/
theorem optionMap_eq_some_map {α β : Type} (f : α → Option β) (g : α → β) :
    ∀ l : List α, (∀ a ∈ l, f a = some (g a)) → optionMap f l = some (l.map g)
  | [], _ => rfl
  | a :: l, h => by
    have ha := h a (List.mem_cons_self a l)
    have hl := optionMap_eq_some_map f g l (fun b hb => h b (List.mem_cons_of_mem a hb))
    simp [optionMap, ha, hl]

/-- A fold that pushes one element per iteration is a `List.map`. -/
theorem foldl_push_eq_map {α β : Type} (f : α → β) :
    ∀ (l : List α) (acc : List β),
      l.foldl (fun acc a => acc ++ [f a]) acc = acc ++ l.map f
  | [], acc => by simp
  | a :: l, acc => by
    rw [List.foldl_cons, foldl_push_eq_map f l (acc ++ [f a])]
    simp

/-- A left fold by `+` is the list sum. -/
theorem foldl_add_eq_sum {M : Type} [AddCommMonoid M] :
    ∀ (l : List M) (z : M), l.foldl (fun a b => a + b) z = z + l.sum
  | [], z => by simp
  | a :: l, z => by
    rw [List.foldl_cons, foldl_add_eq_sum l (z + a)]
    simp [add_assoc]

/-- Sign-extraction for products of the form `Π (0 - f b)`. -/
theorem prod_zero_sub {F : Type} [Field F] (T : Finset F) (f : F → F) :
    ∏ b ∈ T, ((0 : F) - f b) = (-1) ^ T.card * ∏ b ∈ T, f b := by
  calc ∏ b ∈ T, ((0 : F) - f b) = ∏ b ∈ T, (-1) * f b := by
        refine Finset.prod_congr rfl fun b _ => ?_
        ring
    _ = (-1) ^ T.card * ∏ b ∈ T, f b := by
        rw [Finset.prod_mul_distrib, Finset.prod_const]

/-- Evaluation of the Mathlib Lagrange basis polynomial at `0`, in the shape
used by `shamir_reconstruct`. -/
theorem basis_eval_zero {F : Type} [Field F] [DecidableEq F] (S : Finset F) (a : F) :
    (Lagrange.basis S id a).eval 0 =
      (∏ b ∈ S.erase a, ((0 : F) - b)) * (∏ b ∈ S.erase a, (a - b))⁻¹ := by
  rw [Lagrange.basis, Polynomial.eval_prod]
  have h : ∀ b ∈ S.erase a,
      (Lagrange.basisDivisor (id a) (id b)).eval 0 = (a - b)⁻¹ * ((0 : F) - b) := by
    intro b _
    simp [Lagrange.basisDivisor]
  rw [Finset.prod_congr rfl h, Finset.prod_mul_distrib, Finset.prod_inv_distrib]
  ring

/-- Interpolation at zero: summing `p.eval a` against the Lagrange
coefficients `Π (0 - b) / Π (a - b)` over any node set larger than the
degree recovers `p.eval 0`. -/
theorem lagrange_sum_eval_zero {F : Type} [Field F] [DecidableEq F]
    (S : Finset F) (p : Polynomial F) (hdeg : p.degree < S.card) :
    ∑ a ∈ S, p.eval a *
      ((∏ b ∈ S.erase a, ((0 : F) - b)) * (∏ b ∈ S.erase a, (a - b))⁻¹) = p.eval 0 := by
  have hinj : Set.InjOn id (S : Set F) := fun x _ y _ h => h
  conv_rhs => rw [Lagrange.eq_interpolate hinj hdeg]
  rw [Lagrange.interpolate_apply, Polynomial.eval_finset_sum]
  refine Finset.sum_congr rfl fun a _ => ?_
  rw [Polynomial.eval_mul, Polynomial.eval_C, basis_eval_zero]
  simp only [id]

/-- Same as `lagrange_sum_eval_zero`, with the coefficients in the
orientation of `derive_interpolating_value`: `Π b / Π (b - a)`. -/
theorem lagrange_sum_eval_zero_div {F : Type} [Field F] [DecidableEq F]
    (S : Finset F) (p : Polynomial F) (hdeg : p.degree < S.card) :
    ∑ a ∈ S, p.eval a *
      ((∏ b ∈ S.erase a, b) * (∏ b ∈ S.erase a, (b - a))⁻¹) = p.eval 0 := by
  rw [← lagrange_sum_eval_zero S p hdeg]
  refine Finset.sum_congr rfl fun a _ => ?_
  congr 1
  have h1 : ∏ b ∈ S.erase a, ((0 : F) - b) = (-1) ^ (S.erase a).card * ∏ b ∈ S.erase a, b :=
    prod_zero_sub _ _
  have h2 : ∏ b ∈ S.erase a, (a - b) = (-1) ^ (S.erase a).card * ∏ b ∈ S.erase a, (b - a) := by
    rw [← prod_zero_sub (S.erase a) (fun b => b - a)]
    refine Finset.prod_congr rfl fun b _ => ?_
    ring
  rw [h1, h2, mul_inv]
  have hpow : ((-1 : F) ^ (S.erase a).card)⁻¹ = (-1 : F) ^ (S.erase a).card := by
    rw [← inv_pow, inv_neg, inv_one]
  rw [hpow]
  have hsq : (-1 : F) ^ (S.erase a).card * (-1 : F) ^ (S.erase a).card = 1 := by
    rw [← mul_pow]
    norm_num
  linear_combination (-((∏ b ∈ S.erase a, b) * (∏ b ∈ S.erase a, (b - a))⁻¹)) * hsq

/-- `pOf` evaluates like the loop `polyEval`. -/
theorem pOf_eval {F : Type} [Field F] [DecidableEq F] (coeffs : List F) (x : F) :
    (pOf F coeffs).eval x = polyEval F coeffs x := by
  rw [pOf, Polynomial.eval_finset_sum, polyEval]
  refine Finset.sum_congr rfl fun j _ => ?_
  simp

/-- `pOf coeffs` has degree below the coefficient count. -/
theorem pOf_degree_lt {F : Type} [Field F] (coeffs : List F) :
    (pOf F coeffs).degree < (coeffs.length : WithBot ℕ) := by
  refine lt_of_le_of_lt (Polynomial.degree_sum_le _ _) ?_
  rw [Finset.sup_lt_iff (WithBot.bot_lt_coe _)]
  intro j hj
  refine lt_of_le_of_lt (Polynomial.degree_C_mul_X_pow_le j _) ?_
  have hjlt : j < coeffs.length := Finset.mem_range.mp hj
  exact_mod_cast hjlt

/-- `pOf` at zero is the constant term. -/
theorem pOf_eval_zero {F : Type} [Field F] [DecidableEq F] (coeffs : List F) :
    (pOf F coeffs).eval 0 = coeffs.getD 0 0 := by
  rw [pOf_eval, polyEval]
  rcases coeffs with _ | ⟨c, rest⟩
  · simp
  · rw [Finset.sum_eq_single 0]
    · simp
    · intro j _ hj
      rcases Nat.exists_eq_succ_of_ne_zero hj with ⟨k, rfl⟩
      simp [pow_succ]
    · simp

/-- `shamir_reconstruct` on shares lying on a polynomial `p`, with strictly
fewer degrees of freedom than shares and pairwise-distinct x-coordinates,
recovers `p.eval 0`. -/
theorem shamir_reconstruct_eq_eval {F : Type} [Field F] [DecidableEq F]
    (shares : List (Nat × F)) (p : Polynomial F)
    (hv : Function.Injective fun i : Fin shares.length => scalarFrom F (shares.get i).1)
    (hdeg : p.degree < (shares.length : WithBot ℕ))
    (hy : ∀ i : Fin shares.length, (shares.get i).2 = p.eval (scalarFrom F (shares.get i).1)) :
    shamir_reconstruct F shares = some (p.eval 0) := by
  classical
  set v : Fin shares.length → F := fun i => scalarFrom F (shares.get i).1 with hvdef
  set S : Finset F := Finset.univ.image v with hS
  have hcard : S.card = shares.length := by
    rw [hS, Finset.card_image_of_injective _ hv, Finset.card_univ, Fintype.card_fin]
  have hden : ∀ i : Fin shares.length, lagDen F shares i ≠ 0 := by
    intro i
    rw [lagDen, Finset.prod_ne_zero_iff]
    intro j hj
    have hji : j ≠ i := (Finset.mem_erase.mp hj).1
    exact sub_ne_zero_of_ne fun h => hji (hv h).symm
  rw [shamir_reconstruct, if_pos hden]
  congr 1
  have hinjon : ∀ (T : Finset (Fin shares.length)),
      ∀ x ∈ T, ∀ y ∈ T, v x = v y → x = y := fun T x _ y _ h => hv h
  calc
    ∑ i : Fin shares.length,
        (shares.get i).2 * (lagNum F shares i * (lagDen F shares i)⁻¹)
      = ∑ i : Fin shares.length, p.eval (v i) *
          ((∏ b ∈ S.erase (v i), ((0 : F) - b)) * (∏ b ∈ S.erase (v i), (v i - b))⁻¹) := by
        refine Finset.sum_congr rfl fun i _ => ?_
        have himg : (Finset.univ.erase i).image v = S.erase (v i) := by
          rw [hS, Finset.image_erase hv]
        rw [hy i, lagNum, lagDen, ← himg, Finset.prod_image (hinjon _),
          Finset.prod_image (hinjon _)]
    _ = ∑ a ∈ S, p.eval a *
          ((∏ b ∈ S.erase a, ((0 : F) - b)) * (∏ b ∈ S.erase a, (a - b))⁻¹) := by
        rw [hS, Finset.sum_image (hinjon _)]
    _ = p.eval 0 := lagrange_sum_eval_zero S p (by rw [hcard]; exact hdeg)

/-- C1: for every secret `s` and every `(t, n)` with `2 ≤ t ≤ n`, and every
choice of the random polynomial coefficients, reconstructing with
`shamir_reconstruct` from any size-`t` subset of the `n` shares returned by
`shamir_split s t n` yields exactly `s` (any subset, not only a prefix; the
subset is given as any length-`t` list of shares, in any order, whose
x-coordinates are pairwise distinct in the field). -/
theorem C1_split_reconstruct_any_subset (F : Type) [Field F] [DecidableEq F]
    (secret : F) (rand : List F) (t n : Nat) (shares sub : List (Nat × F))
    (ht : 2 ≤ t) (htn : t ≤ n)
    (hsplit : shamir_split F secret rand t n = some shares)
    (hr : rand.length = t - 1)
    (hsub : ∀ q ∈ sub, q ∈ shares)
    (hlen : sub.length = t)
    (hnd : (sub.map fun q => scalarFrom F q.1).Nodup) :
    shamir_reconstruct F sub = some secret := by
  have hshape : shares = shamirShares F (secret :: rand) n := by
    rw [shamir_split, if_pos ⟨htn, ht⟩] at hsplit
    exact (Option.some_inj.mp hsplit).symm
  have hv : Function.Injective fun k : Fin sub.length => scalarFrom F (sub.get k).1 := by
    intro i j hij
    have hi2 : i.1 < (sub.map fun q => scalarFrom F q.1).length := by simp
    have hj2 : j.1 < (sub.map fun q => scalarFrom F q.1).length := by simp
    have hgi : (sub.map fun q => scalarFrom F q.1)[i.1] = scalarFrom F (sub.get i).1 := by
      simp
    have hgj : (sub.map fun q => scalarFrom F q.1)[j.1] = scalarFrom F (sub.get j).1 := by
      simp
    exact Fin.ext (hnd.getElem_inj_iff.mp (by rw [hgi, hgj]; exact hij))
  have hy : ∀ i : Fin sub.length,
      (sub.get i).2 = (pOf F (secret :: rand)).eval (scalarFrom F (sub.get i).1) := by
    intro i
    have hmem : sub.get i ∈ shares := hsub _ (List.get_mem sub i.1 i.2)
    rw [hshape, shamirShares] at hmem
    rcases List.mem_map.mp hmem with ⟨k, _, hq⟩
    rw [← hq, pOf_eval]
  have hdeg : (pOf F (secret :: rand)).degree < (sub.length : WithBot ℕ) := by
    have hd : (pOf F (secret :: rand)).degree < ((secret :: rand).length : WithBot ℕ) :=
      pOf_degree_lt (secret :: rand)
    have hlc : (secret :: rand).length = sub.length := by
      simp only [List.length_cons, hr, hlen]
      omega
    rw [← hlc]
    exact hd
  rw [shamir_reconstruct_eq_eval sub (pOf F (secret :: rand)) hv hdeg hy, pOf_eval_zero]
  rfl

/-- Witness for C1: a concrete 3-of-5 split of the secret `4` over `Zp`
(coefficients `[4, 7, 1]`), reconstructed from the non-prefix subset of
shares 1, 3 and 5. -/
theorem C1_witness :
    shamir_reconstruct Zp [(1, 1), (3, 1), (5, 9)] = some 4 :=
  C1_split_reconstruct_any_subset Zp 4 [7, 1] 3 5
    [(1, 1), (2, 0), (3, 1), (4, 4), (5, 9)] [(1, 1), (3, 1), (5, 9)]
    (by decide) (by decide) (by decide) (by decide) (by decide) (by decide) (by decide)

/-- C9: `shamir_reconstruct` applied to the empty share list does not fail:
it returns the zero scalar, exactly as it would for a sharing whose secret
is `0`, so the two cases are indistinguishable at the interface. -/
theorem C9_reconstruct_empty (F : Type) [Field F] [DecidableEq F] :
    shamir_reconstruct F ([] : List (Nat × F)) = some 0 := by
  rw [shamir_reconstruct, if_pos (fun i => i.elim0)]
  simp

/-- C10: a share list with two entries at distinct positions carrying the
same index makes `shamir_reconstruct` panic (the denominator product has
the factor `x_i - x_j = 0` and the unwrap of the zero inverse aborts). -/
theorem C10_reconstruct_duplicate_index_panics (F : Type) [Field F] [DecidableEq F]
    (shares : List (Nat × F)) (i j : Fin shares.length)
    (hij : i ≠ j) (hdup : (shares.get i).1 = (shares.get j).1) :
    shamir_reconstruct F shares = none := by
  have hzero : lagDen F shares i = 0 := by
    rw [lagDen]
    refine Finset.prod_eq_zero (Finset.mem_erase.mpr ⟨hij.symm, Finset.mem_univ j⟩) ?_
    rw [hdup, sub_self]
  rw [shamir_reconstruct, if_neg (fun hall => hall i hzero)]

/-- Witness for C10: two shares with the same index `1` make the
reconstruction abort. -/
theorem C10_witness :
    shamir_reconstruct Zp [(1, 3), (1, 5)] = none :=
  C10_reconstruct_duplicate_index_panics Zp [(1, 3), (1, 5)]
    ⟨0, by decide⟩ ⟨1, by decide⟩ (by decide) (by decide)

/-- Positions with pairwise-distinct mapped x-coordinates give an injective
coordinate map. -/
theorem nodup_cast_injective {F : Type} [Field F] [DecidableEq F]
    (sub : List (Nat × F)) (hnd : (sub.map fun q => scalarFrom F q.1).Nodup) :
    Function.Injective fun k : Fin sub.length => scalarFrom F (sub.get k).1 := by
  intro i j hij
  have hi2 : i.1 < (sub.map fun q => scalarFrom F q.1).length := by simp
  have hj2 : j.1 < (sub.map fun q => scalarFrom F q.1).length := by simp
  have hgi : (sub.map fun q => scalarFrom F q.1)[i.1] = scalarFrom F (sub.get i).1 := by
    simp
  have hgj : (sub.map fun q => scalarFrom F q.1)[j.1] = scalarFrom F (sub.get j).1 := by
    simp
  exact Fin.ext (hnd.getElem_inj_iff.mp (by rw [hgi, hgj]; exact hij))

/-- `shamir_reconstruct` never panics on a share list whose x-coordinates
are pairwise distinct in the field: every Lagrange denominator is nonzero. -/
theorem reconstruct_returns_value_of_distinct {F : Type} [Field F] [DecidableEq F]
    (shares : List (Nat × F))
    (hnd : (shares.map fun q => scalarFrom F q.1).Nodup) :
    ∃ y, shamir_reconstruct F shares = some y := by
  have hv := nodup_cast_injective shares hnd
  have hden : ∀ i : Fin shares.length, lagDen F shares i ≠ 0 := by
    intro i
    rw [lagDen, Finset.prod_ne_zero_iff]
    intro j hj
    have hji : j ≠ i := (Finset.mem_erase.mp hj).1
    exact sub_ne_zero_of_ne fun h => hji (hv h).symm
  rw [shamir_reconstruct, if_pos hden]
  exact ⟨_, rfl⟩

/-- C8 (amended): applying `shamir_reconstruct` to fewer than `t` shares
(with pairwise-distinct indices) of a valid `t`-of-`n` sharing is not an
error: it returns some mathematically well-defined scalar rather than
raising.  The returned value is, however, not guaranteed to differ from
the real secret (see the counterexample), so no conclusion about the
secret can be drawn from it. -/
theorem C8_subthreshold_returns_value (F : Type) [Field F] [DecidableEq F]
    (secret : F) (rand : List F) (t n : Nat) (shares sub : List (Nat × F))
    (hsplit : shamir_split F secret rand t n = some shares)
    (hsub : ∀ q ∈ sub, q ∈ shares)
    (hlen : sub.length < t)
    (hnd : (sub.map fun q => scalarFrom F q.1).Nodup) :
    ∃ y, shamir_reconstruct F sub = some y :=
  reconstruct_returns_value_of_distinct sub hnd

/-- Counterexample for C8 as stated: a valid 3-of-3 sharing of the secret
`5` over `Zp` with coefficient list `[5, 7, 0]` (a legal draw of the random
coefficients) whose first two shares — fewer than `t = 3` — reconstruct to
exactly the secret `5`, not to a different value. -/
theorem C8_counterexample :
    shamir_split Zp 5 [7, 0] 3 3 = some [(1, 1), (2, 8), (3, 4)] ∧
      shamir_reconstruct Zp [(1, 1), (2, 8)] = some 5 := by
  decide

/-- Witness for C8: two (fewer than `t = 3`) of the five shares of the
sharing of `4` over `Zp` reconstruct without error to some value. -/
theorem C8_witness :
    ∃ y, shamir_reconstruct Zp [(1, 1), (3, 1)] = some y :=
  C8_subthreshold_returns_value Zp 4 [7, 1] 3 5
    [(1, 1), (2, 0), (3, 1), (4, 4), (5, 9)] [(1, 1), (3, 1)]
    (by decide) (by decide) (by decide) (by decide)

/-- Binding-factor lookup in a list of pairs `(id, rho id)` built over a
list of identifiers containing `x` yields `rho x`. -/
theorem binding_factor_lookup {F : Type} [Field F] [DecidableEq F]
    (rhoF : F → F) (ids : List F) (x : F) (hx : x ∈ ids) :
    binding_factor_for_participant F (ids.map fun i => (i, rhoF i)) x = some (rhoF x) := by
  induction ids with
  | nil => cases hx
  | cons i ids ih =>
    rw [List.map_cons, binding_factor_for_participant, List.find?_cons]
    by_cases hix : i = x
    · subst hix
      simp
    · have hx2 : x ∈ ids := by
        rcases List.mem_cons.mp hx with h | h
        · exact absurd h.symm hix
        · exact h
      have hd : (decide ((i, rhoF i).1 = x)) = false := by
        simp [hix]
      rw [hd]
      exact ih hx2

/-- `compute_binding_factors` is the per-commitment map computing
`rho = H1(group_pk ‖ H4(msg) ‖ H5(commitment list) ‖ id)`. -/
theorem compute_binding_factors_eq_map (F : Type) [Field F] [DecidableEq F]
    (G : Type) [AddCommGroup G] [Module F G] [DecidableEq G]
    (sha : List Nat → List Nat) (serF : F → List Nat) (serG : G → List Nat)
    (group_pk : G) (cl : List (F × G × G)) (msg : List Nat) :
    compute_binding_factors F G sha serF serG group_pk cl msg =
      cl.map fun c =>
        (c.1, from_le_bytes_mod_order F (H1 sha
          ((serG group_pk ++ H4 sha msg ++
            H5 sha (encode_group_commitment_list F G serF serG cl)) ++ serF c.1))) := by
  rw [compute_binding_factors, foldl_push_eq_map, List.nil_append]

/-- `compute_group_commitment` evaluates to the sum `Σ (D_i + rho_i • E_i)`
when every lookup succeeds. -/
theorem cgc_fold_eq_sum {F : Type} [Field F] [DecidableEq F]
    {G : Type} [AddCommGroup G] [Module F G] [DecidableEq G]
    (bfl : List (F × F)) (rhoF : F → F) :
    ∀ (cl : List (F × G × G)) (R0 : G),
      (∀ c ∈ cl, binding_factor_for_participant F bfl c.1 = some (rhoF c.1)) →
      cl.foldl
          (fun acc c =>
            acc.bind fun R =>
              (binding_factor_for_participant F bfl c.1).map fun rho =>
                R + (c.2.1 + rho • c.2.2))
          (some R0)
        = some (R0 + (cl.map fun c => c.2.1 + rhoF c.1 • c.2.2).sum)
  | [], R0, _ => by simp
  | c :: cl, R0, h => by
    rw [List.foldl_cons, Option.some_bind, h c (List.mem_cons_self c cl), Option.map_some',
      cgc_fold_eq_sum bfl rhoF cl (R0 + (c.2.1 + rhoF c.1 • c.2.2))
        (fun d hd => h d (List.mem_cons_of_mem c hd))]
    rw [List.map_cons, List.sum_cons, add_assoc]

/-- Corollary of `cgc_fold_eq_sum` starting from the zero accumulator. -/
theorem compute_group_commitment_eq_sum {F : Type} [Field F] [DecidableEq F]
    {G : Type} [AddCommGroup G] [Module F G] [DecidableEq G]
    (cl : List (F × G × G)) (bfl : List (F × F)) (rhoF : F → F)
    (h : ∀ c ∈ cl, binding_factor_for_participant F bfl c.1 = some (rhoF c.1)) :
    compute_group_commitment F G cl bfl =
      some ((cl.map fun c => c.2.1 + rhoF c.1 • c.2.2).sum) := by
  rw [compute_group_commitment, cgc_fold_eq_sum bfl rhoF cl 0 h, zero_add]

/-- On a duplicate-free coordinate list, `derive_interpolating_value`
returns the Lagrange value `Π_{b ≠ a} b / Π_{b ≠ a} (b - a)` over the set of
coordinates. -/
theorem derive_interpolating_value_eq {F : Type} [Field F] [DecidableEq F]
    (xs : List F) (a : F) (hnd : xs.Nodup) :
    derive_interpolating_value F xs a =
      some ((∏ b ∈ xs.toFinset.erase a, b) * (∏ b ∈ xs.toFinset.erase a, (b - a))⁻¹) := by
  have h1 : (xs.filter fun b => decide (¬ b = a)).toFinset = xs.toFinset.erase a := by
    rw [List.toFinset_filter]
    rw [← Finset.filter_ne' xs.toFinset a]
    exact Finset.filter_congr fun b _ => by simp
  have hnd2 : (xs.filter fun b => decide (¬ b = a)).Nodup := hnd.filter _
  have hprod1 : (xs.filter fun b => decide (¬ b = a)).prod = ∏ b ∈ xs.toFinset.erase a, b := by
    rw [← h1, List.prod_toFinset _ hnd2, List.map_id']
  have hprod2 : ((xs.filter fun b => decide (¬ b = a)).map fun b => b - a).prod =
      ∏ b ∈ xs.toFinset.erase a, (b - a) := by
    rw [← h1, List.prod_toFinset _ hnd2]
  have hden : (∏ b ∈ xs.toFinset.erase a, (b - a)) ≠ 0 := by
    rw [Finset.prod_ne_zero_iff]
    intro b hb
    exact sub_ne_zero_of_ne (Finset.mem_erase.mp hb).1
  simp only [derive_interpolating_value]
  rw [hprod1, hprod2, if_neg hden]

/-- Summing `lambda_a * p.eval a` over a duplicate-free coordinate list with
more coordinates than the degree of `p` recovers `p.eval 0`, where
`lambda_a` is the value from `derive_interpolating_value`. -/
theorem sum_deriv_mul_eval {F : Type} [Field F] [DecidableEq F]
    (xs : List F) (p : Polynomial F) (hnd : xs.Nodup)
    (hdeg : p.degree < (xs.length : WithBot ℕ)) :
    (xs.map fun a =>
      ((∏ b ∈ xs.toFinset.erase a, b) * (∏ b ∈ xs.toFinset.erase a, (b - a))⁻¹) * p.eval a).sum
      = p.eval 0 := by
  rw [← List.sum_toFinset _ hnd]
  have hcard : xs.toFinset.card = xs.length := List.toFinset_card_of_nodup hnd
  rw [← lagrange_sum_eval_zero_div xs.toFinset p (by rw [hcard]; exact hdeg)]
  exact Finset.sum_congr rfl fun a _ => by ring

/-- Core end-to-end lemma: for any `2 ≤ t ≤ n`, any duplicate-free list
`idxs` of `t` signer indices from `1..n`, any nonce draws and any message,
the subset signing session of `subsetSession` completes and `verify`
accepts the aggregated signature — provided the index-to-scalar conversion
is injective on `0..n` (always true in the real 253-bit scalar field, where
indices are below `2^64`). -/
theorem subsetSession_verifies
    (F : Type) [Field F] [DecidableEq F]
    (G : Type) [AddCommGroup G] [Module F G] [DecidableEq G]
    (sha : List Nat → List Nat) (serF : F → List Nat) (serG : G → List Nat)
    (g : G) (sk : F) (rand : List F) (dDraw eDraw : Nat → F) (msg : List Nat)
    (t n : Nat) (idxs : List Nat)
    (ht : 2 ≤ t) (htn : t ≤ n) (hr : rand.length = t - 1)
    (hidx : ∀ i ∈ idxs, 1 ≤ i ∧ i ≤ n) (hlen : idxs.length = t) (hndidx : idxs.Nodup)
    (hinj : ∀ i, i < n + 1 → ∀ j, j < n + 1 → scalarFrom F i = scalarFrom F j → i = j) :
    ∃ R z, subsetSession F G sha serF serG g sk rand dDraw eDraw msg t n idxs
      = some (R, z, true) := by
  classical
  have hnz : ∀ i : Nat, 1 ≤ i → i ≤ n → scalarFrom F i ≠ 0 := by
    intro i h1 h2 h0
    have hz : scalarFrom F 0 = 0 := by
      simp [scalarFrom]
    have h := hinj i (by omega) 0 (by omega) (by rw [h0, hz])
    omega
  set y : Nat → F := fun i => polyEval F (sk :: rand) (scalarFrom F i) with hy_def
  set sg : Nat → FrostSigner F G :=
    fun i => FrostSigner.new F G i (y i) g (decide (t < i)) (dDraw i) (eDraw i) with hsg_def
  have hsplit : shamir_split F sk rand t n = some (shamirShares F (sk :: rand) n) := by
    rw [shamir_split, if_pos ⟨htn, ht⟩]
  set fr : Frost F G := ⟨g, (List.range n).map fun k => sg (k + 1), sk • g⟩ with hfr_def
  have hsgs : (shamirShares F (sk :: rand) n).map
        (fun sh => FrostSigner.new F G sh.1 sh.2 g (decide (t < sh.1)) (dDraw sh.1) (eDraw sh.1))
      = (List.range n).map fun k => sg (k + 1) := by
    rw [shamirShares, List.map_map]
    rfl
  have hstep1 : Frost.signature_share F G sk g rand dDraw eDraw t n = some fr := by
    rw [Frost.signature_share, hsplit, Option.map_some', hfr_def, ← hsgs]
  have hmemsg : ∀ s ∈ (List.range n).map fun k => sg (k + 1), ∃ k, k < n ∧ s = sg (k + 1) := by
    intro s hs
    rcases List.mem_map.mp hs with ⟨k, hk, hks⟩
    exact ⟨k, List.mem_range.mp hk, hks.symm⟩
  have hidnz : ∀ s ∈ (List.range n).map fun k => sg (k + 1), s.identifier ≠ 0 := by
    intro s hs
    rcases hmemsg s hs with ⟨k, hk, rfl⟩
    exact hnz (k + 1) (by omega) (by omega)
  set cl : List (F × G × G) := (List.range n).map
    (fun k => ((sg (k + 1)).identifier, (sg (k + 1)).commitment.D, (sg (k + 1)).commitment.E))
    with hcl_def
  have hstep2 : optionMap
      (fun s => (nonZeroScalar_new F s.identifier).map
        fun id => (id, s.commitment.D, s.commitment.E))
      ((List.range n).map fun k => sg (k + 1)) = some cl := by
    rw [optionMap_eq_some_map _
      (fun s : FrostSigner F G => (s.identifier, s.commitment.D, s.commitment.E)) _
      (fun s hs => by rw [nonZeroScalar_new, if_neg (hidnz s hs), Option.map_some'])]
    rw [hcl_def, List.map_map]
    rfl
  set prefBytes : List Nat := serG (sk • g) ++ H4 sha msg ++
    H5 sha (encode_group_commitment_list F G serF serG cl) with hpref_def
  set rhoF : F → F := fun x => from_le_bytes_mod_order F (H1 sha (prefBytes ++ serF x))
    with hrho_def
  set bfl := compute_binding_factors F G sha serF serG (sk • g) cl msg with hbfl_def
  have hbfl2 : bfl = ((List.range n).map fun k => (sg (k + 1)).identifier).map
      fun x => (x, rhoF x) := by
    rw [hbfl_def, compute_binding_factors_eq_map, hcl_def, List.map_map, List.map_map]
    rfl
  have hlook : ∀ k, k < n →
      binding_factor_for_participant F bfl ((sg (k + 1)).identifier)
        = some (rhoF ((sg (k + 1)).identifier)) := by
    intro k hk
    rw [hbfl2]
    exact binding_factor_lookup rhoF _ _ (List.mem_map_of_mem _ (List.mem_range.mpr hk))
  set sg2 : Nat → FrostSigner F G := fun i => { sg i with rho := rhoF ((sg i).identifier) }
    with hsg2_def
  set fr2 : Frost F G := ⟨g, (List.range n).map fun k => sg2 (k + 1), sk • g⟩ with hfr2_def
  have hstep3 : fr.update_binding_factors F G bfl = some fr2 := by
    rw [Frost.update_binding_factors]
    have hfsig : fr.signers = (List.range n).map fun k => sg (k + 1) := rfl
    rw [hfsig]
    rw [optionMap_eq_some_map _
      (fun s : FrostSigner F G => { s with rho := rhoF s.identifier }) _ ?_]
    · rw [Option.map_some']
      have h2 : (((List.range n).map fun k => sg (k + 1)).map
          fun s => { s with rho := rhoF s.identifier })
          = (List.range n).map fun k => sg2 (k + 1) := by
        rw [List.map_map]
        rfl
      rw [h2, hfr_def, hfr2_def]
    · intro s hs
      rcases hmemsg s hs with ⟨k, hk, rfl⟩
      rw [nonZeroScalar_new, if_neg (hidnz _ hs), Option.some_bind, hlook k hk,
        Option.map_some']
  set sel : List Nat := (List.range n).filter
    (fun k => decide ((sg (k + 1)).identifier ∈ idxs.map (scalarFrom F))) with hsel_def
  have hselnd : sel.Nodup := (List.nodup_range n).filter _
  have hselsub : ∀ k ∈ sel, k < n := fun k hk =>
    List.mem_range.mp (List.mem_of_mem_filter hk)
  have hsubCl : cl.filter (fun c => decide (c.1 ∈ idxs.map (scalarFrom F)))
      = sel.map (fun k =>
          ((sg (k + 1)).identifier, (sg (k + 1)).commitment.D, (sg (k + 1)).commitment.E)) := by
    rw [hcl_def, List.filter_map, hsel_def]
    rfl
  have hsellen : t ≤ sel.length := by
    have hmapsto : ∀ i ∈ idxs.toFinset, i - 1 ∈ sel.toFinset := by
      intro i hi
      have him := List.mem_toFinset.mp hi
      have hib := hidx i him
      rw [List.mem_toFinset, hsel_def, List.mem_filter]
      refine ⟨List.mem_range.mpr (by omega), ?_⟩
      have h1 : i - 1 + 1 = i := by omega
      rw [h1]
      exact decide_eq_true (List.mem_map_of_mem _ him)
    have hinjon : Set.InjOn (fun i => i - 1) (idxs.toFinset : Set Nat) := by
      intro a ha b hb hab
      have ha1 := (hidx a (List.mem_toFinset.mp ha)).1
      have hb1 := (hidx b (List.mem_toFinset.mp hb)).1
      have hab2 : a - 1 = b - 1 := hab
      omega
    have hc := Finset.card_le_card_of_injOn _ hmapsto hinjon
    rw [List.toFinset_card_of_nodup hndidx, List.toFinset_card_of_nodup hselnd] at hc
    omega
  set v : Nat → F := fun k => (sg (k + 1)).identifier with hv_def
  have hxnd : (sel.map v).Nodup := by
    refine List.Nodup.map_on ?_ hselnd
    intro a ha b hb hab
    have hlt := hselsub a ha
    have hlt2 := hselsub b hb
    have := hinj (a + 1) (by omega) (b + 1) (by omega) hab
    omega
  set R : G := ((sel.map fun k =>
    (sg (k + 1)).commitment.D
      + rhoF ((sg (k + 1)).identifier) • (sg (k + 1)).commitment.E).sum) with hR_def
  have hstep4 : compute_group_commitment F G
      (sel.map fun k =>
        ((sg (k + 1)).identifier, (sg (k + 1)).commitment.D, (sg (k + 1)).commitment.E)) bfl
      = some R := by
    rw [compute_group_commitment_eq_sum _ _ rhoF
      (fun c hc => by
        rcases List.mem_map.mp hc with ⟨k, hk, hkc⟩
        rw [← hkc]
        exact hlook k (hselsub k hk))]
    rw [hR_def, List.map_map]
    rfl
  set c : F := compute_challenge F G sha serG R (sk • g) msg with hc_def
  set S : Finset F := (sel.map v).toFinset with hS_def
  set lam : F → F := fun a => (∏ b ∈ S.erase a, b) * (∏ b ∈ S.erase a, (b - a))⁻¹
    with hlam_def
  set zf : FrostSigner F G → F :=
    fun s => s.d + s.rho * s.e + lam s.identifier * s.x * c with hzf_def
  have hsubSigners : ((List.range n).map fun k => sg2 (k + 1)).filter
      (fun s => decide (s.identifier ∈ idxs.map (scalarFrom F)))
      = sel.map fun k => sg2 (k + 1) := by
    rw [List.filter_map, hsel_def]
    rfl
  have hstep5 : optionMap
      (fun s => FrostSigner.sign F G s c (sel.map v)) (sel.map fun k => sg2 (k + 1))
      = some ((sel.map fun k => sg2 (k + 1)).map zf) := by
    refine optionMap_eq_some_map _ _ _ (fun s hs => ?_)
    rcases List.mem_map.mp hs with ⟨k, hk, hks⟩
    have hidnz2 : s.identifier ≠ 0 := by
      rw [← hks]
      exact hnz (k + 1) (by omega) (by have := hselsub k hk; omega)
    rw [FrostSigner.sign, nonZeroScalar_new, if_neg hidnz2, Option.some_bind,
      derive_interpolating_value_eq _ _ hxnd, Option.map_some', hzf_def, hlam_def, hS_def]
  set z : F := ((sel.map fun k => sg2 (k + 1)).map zf).sum with hz_def
  have hstep6 : Frost.signature_aggregate F ((sel.map fun k => sg2 (k + 1)).map zf) = z := by
    rw [Frost.signature_aggregate, foldl_add_eq_sum, zero_add, hz_def]
  set p : Polynomial F := pOf F (sk :: rand) with hp_def
  have hdeg : p.degree < ((sel.map v).length : WithBot ℕ) := by
    refine lt_of_lt_of_le (pOf_degree_lt (sk :: rand)) ?_
    rw [List.length_map]
    have hle : (sk :: rand).length ≤ sel.length := by
      simp only [List.length_cons, hr]
      omega
    exact_mod_cast hle
  have hlag : (sel.map fun k => lam (v k) * y (k + 1)).sum = sk := by
    have hmm : ((sel.map v).map fun a => lam a * p.eval a)
        = sel.map fun k => lam (v k) * y (k + 1) := by
      rw [List.map_map]
      refine List.map_congr_left fun k hk => ?_
      show lam (v k) * p.eval (v k) = lam (v k) * y (k + 1)
      rw [hp_def, pOf_eval]
      rfl
    rw [← hmm]
    have hsum := sum_deriv_mul_eval (sel.map v) p hxnd hdeg
    simp only [hlam_def, hS_def]
    rw [hsum, hp_def, pOf_eval_zero]
    rfl
  set φ : F →+ G := AddMonoidHom.mk' (fun a : F => a • g) (fun a b => add_smul a b g)
    with hphi_def
  have hver : z • g = R + c • (sk • g) := by
    have hzg : z • g = (sel.map fun k => (zf (sg2 (k + 1))) • g).sum := by
      rw [hz_def, List.map_map]
      have h1 : ((sel.map fun k => zf (sg2 (k + 1))).sum) • g
          = φ ((sel.map fun k => zf (sg2 (k + 1))).sum) := rfl
      rw [show (sel.map (zf ∘ fun k => sg2 (k + 1))) = sel.map fun k => zf (sg2 (k + 1)) from rfl,
        h1, map_list_sum φ, List.map_map]
      rfl
    have hsplitz : ∀ k ∈ sel, (zf (sg2 (k + 1))) • g
        = ((sg (k + 1)).commitment.D + rhoF (v k) • (sg (k + 1)).commitment.E)
          + (lam (v k) * y (k + 1) * c) • g := by
      intro k hk
      rw [hzf_def]
      show ((sg2 (k + 1)).d + (sg2 (k + 1)).rho * (sg2 (k + 1)).e
          + lam ((sg2 (k + 1)).identifier) * (sg2 (k + 1)).x * c) • g = _
      rw [add_smul, add_smul]
      have hd : (sg2 (k + 1)).d • g = (sg (k + 1)).commitment.D := rfl
      have he : ((sg2 (k + 1)).rho * (sg2 (k + 1)).e) • g
          = rhoF (v k) • (sg (k + 1)).commitment.E := by
        rw [mul_smul]
        rfl
      rw [hd, he]
      rfl
    have hz2 : z • g = R + ((sel.map fun k => (lam (v k) * y (k + 1) * c) • g).sum) := by
      rw [hzg, List.map_congr_left hsplitz, List.sum_map_add, hR_def]
    have hz3 : (sel.map fun k => (lam (v k) * y (k + 1) * c) • g).sum = (sk * c) • g := by
      have h2 : (sel.map fun k => (lam (v k) * y (k + 1) * c) • g)
          = ((sel.map fun k => lam (v k) * y (k + 1) * c).map fun w => φ w) := by
        rw [List.map_map]
        rfl
      have h3 : (sel.map fun k => lam (v k) * y (k + 1) * c).sum
          = ((sel.map fun k => lam (v k) * y (k + 1)).sum) * c :=
        List.sum_map_mul_right sel (fun k => lam (v k) * y (k + 1)) c
      rw [h2, ← map_list_sum φ, h3, hlag]
      rfl
    rw [hz2, hz3, smul_smul, mul_comm]
  refine ⟨R, z, ?_⟩
  rw [subsetSession]
  simp only [Option.bind_eq_bind]
  rw [hstep1, Option.some_bind]
  have hfsig : fr.signers = (List.range n).map fun k => sg (k + 1) := rfl
  have hfpk : fr.group_pk = sk • g := rfl
  rw [hfsig]
  rw [hstep2]
  rw [Option.some_bind]
  rw [hfpk]
  rw [← hbfl_def]
  rw [hstep3]
  rw [Option.some_bind]
  have hfsig2 : fr2.signers = (List.range n).map fun k => sg2 (k + 1) := rfl
  have hfpk2 : fr2.group_pk = sk • g := rfl
  have hgen2 : fr2.generator = g := rfl
  rw [hsubCl, hstep4, Option.some_bind]
  have hxc : (sel.map fun k =>
      ((sg (k + 1)).identifier, (sg (k + 1)).commitment.D, (sg (k + 1)).commitment.E)).map
        (fun c => c.1) = sel.map v := by
    rw [List.map_map]
    rfl
  rw [← hc_def, hxc, hfsig2, hsubSigners, hstep5, Option.some_bind, hstep6]
  rw [Frost.verify, hgen2, hfpk2]
  rw [decide_eq_true (by exact hver : z • g = R + c • (sk • g))]

/-- C2: in a session with threshold 3 and 5 signers, after all 5 signers
commit and the coordinator computes binding factors and the challenge for a
fixed message, the signature shares of any 3-of-5 subset (group commitment
and Lagrange coefficients computed over that subset's identifiers),
aggregated with `signature_aggregate`, make `verify` return `true` against
the group public key.  The injectivity hypothesis on the index-to-scalar
conversion over `0..5` is automatic in the real 253-bit scalar field. -/
theorem C2_any_3_of_5_subset_verifies
    (F : Type) [Field F] [DecidableEq F]
    (G : Type) [AddCommGroup G] [Module F G] [DecidableEq G]
    (sha : List Nat → List Nat) (serF : F → List Nat) (serG : G → List Nat)
    (g : G) (sk : F) (rand : List F) (dDraw eDraw : Nat → F) (msg : List Nat)
    (idxs : List Nat)
    (hr : rand.length = 2)
    (hidx : ∀ i ∈ idxs, 1 ≤ i ∧ i ≤ 5) (hlen : idxs.length = 3) (hnd : idxs.Nodup)
    (hinj : ∀ i, i < 6 → ∀ j, j < 6 → scalarFrom F i = scalarFrom F j → i = j) :
    ∃ R z, subsetSession F G sha serF serG g sk rand dDraw eDraw msg 3 5 idxs
      = some (R, z, true) :=
  subsetSession_verifies F G sha serF serG g sk rand dDraw eDraw msg 3 5 idxs
    (by omega) (by omega) hr hidx hlen hnd hinj

/-- Witness for C2: a concrete 3-of-5 session over `Zp` with the non-prefix
subset of signers 1, 3 and 5. -/
theorem C2_witness :
    ∃ R z, subsetSession Zp Zp shaId serZp serZp 2 4 [7, 1]
      (fun i => scalarFrom Zp i) (fun i => scalarFrom Zp (2 * i + 1))
      (strBytes "asia is underrated") 3 5 [1, 3, 5] = some (R, z, true) :=
  C2_any_3_of_5_subset_verifies Zp Zp shaId serZp serZp 2 4 [7, 1]
    (fun i => scalarFrom Zp i) (fun i => scalarFrom Zp (2 * i + 1))
    (strBytes "asia is underrated") [1, 3, 5]
    (by decide) (by decide) (by decide) (by decide) (by decide)

/-- C3 (amended): for a fixed signing session (fixed secret sharing, fixed
per-signer nonces, fixed message), the signatures obtained by aggregating
the shares of two valid 3-of-5 subsets each verify, but the two pairs
`(R, s)` are not in general identical — different subsets contribute
different nonce commitments (see the counterexample). -/
theorem C3_two_subsets_each_verify
    (F : Type) [Field F] [DecidableEq F]
    (G : Type) [AddCommGroup G] [Module F G] [DecidableEq G]
    (sha : List Nat → List Nat) (serF : F → List Nat) (serG : G → List Nat)
    (g : G) (sk : F) (rand : List F) (dDraw eDraw : Nat → F) (msg : List Nat)
    (idxs1 idxs2 : List Nat)
    (hr : rand.length = 2)
    (hidx1 : ∀ i ∈ idxs1, 1 ≤ i ∧ i ≤ 5) (hlen1 : idxs1.length = 3) (hnd1 : idxs1.Nodup)
    (hidx2 : ∀ i ∈ idxs2, 1 ≤ i ∧ i ≤ 5) (hlen2 : idxs2.length = 3) (hnd2 : idxs2.Nodup)
    (hinj : ∀ i, i < 6 → ∀ j, j < 6 → scalarFrom F i = scalarFrom F j → i = j) :
    (∃ R z, subsetSession F G sha serF serG g sk rand dDraw eDraw msg 3 5 idxs1
        = some (R, z, true)) ∧
      (∃ R z, subsetSession F G sha serF serG g sk rand dDraw eDraw msg 3 5 idxs2
        = some (R, z, true)) :=
  ⟨subsetSession_verifies F G sha serF serG g sk rand dDraw eDraw msg 3 5 idxs1
      (by omega) (by omega) hr hidx1 hlen1 hnd1 hinj,
    subsetSession_verifies F G sha serF serG g sk rand dDraw eDraw msg 3 5 idxs2
      (by omega) (by omega) hr hidx2 hlen2 hnd2 hinj⟩

/-- Witness for C3 (amended): the subsets `{1,2,3}` and `{3,4,5}` of a
concrete session over `Zp` both produce verifying signatures. -/
theorem C3_witness :
    (∃ R z, subsetSession Zp Zp shaId serZp serZp 1 4 [7, 1]
        (fun i => scalarFrom Zp i) (fun i => scalarFrom Zp (2 * i + 1))
        (strBytes "asia is underrated") 3 5 [1, 2, 3] = some (R, z, true)) ∧
      (∃ R z, subsetSession Zp Zp shaId serZp serZp 1 4 [7, 1]
        (fun i => scalarFrom Zp i) (fun i => scalarFrom Zp (2 * i + 1))
        (strBytes "asia is underrated") 3 5 [3, 4, 5] = some (R, z, true)) :=
  C3_two_subsets_each_verify Zp Zp shaId serZp serZp 1 4 [7, 1]
    (fun i => scalarFrom Zp i) (fun i => scalarFrom Zp (2 * i + 1))
    (strBytes "asia is underrated") [1, 2, 3] [3, 4, 5]
    (by decide) (by decide) (by decide) (by decide) (by decide) (by decide) (by decide)
    (by decide)

set_option maxRecDepth 100000 in
/-- Counterexample for C3 as stated: in a fixed concrete session over `Zp`
(same sharing, same nonces, same message), the 3-of-5 subsets `{1,2,3}` and
`{3,4,5}` both produce verifying signatures, but the two final pairs
`(R, s)` are different, not identical. -/
theorem C3_counterexample :
    ((subsetSession Zp Zp shaId serZp serZp 1 4 [7, 1]
        (fun i => scalarFrom Zp i) (fun i => scalarFrom Zp (2 * i + 1))
        (strBytes "asia is underrated") 3 5 [1, 2, 3]).map fun r => (r.1, r.2.1))
      ≠ ((subsetSession Zp Zp shaId serZp serZp 1 4 [7, 1]
        (fun i => scalarFrom Zp i) (fun i => scalarFrom Zp (2 * i + 1))
        (strBytes "asia is underrated") 3 5 [3, 4, 5]).map fun r => (r.1, r.2.1)) ∧
      ((subsetSession Zp Zp shaId serZp serZp 1 4 [7, 1]
        (fun i => scalarFrom Zp i) (fun i => scalarFrom Zp (2 * i + 1))
        (strBytes "asia is underrated") 3 5 [1, 2, 3]).map fun r => r.2.2) = some true ∧
      ((subsetSession Zp Zp shaId serZp serZp 1 4 [7, 1]
        (fun i => scalarFrom Zp i) (fun i => scalarFrom Zp (2 * i + 1))
        (strBytes "asia is underrated") 3 5 [3, 4, 5]).map fun r => r.2.2) = some true := by
  decide

/-- C4 (evaluation of the code at the claim's failing inputs): contrary to
its own doc comment ("Panics if `x_coordinates` do not contain `x_i`, or if
`x_i` is found more than once"), `derive_interpolating_value` performs no
membership or uniqueness check: with `x_i = 3` absent from `[1, 2]` it
returns `some 1`, and with `x_i = 1` duplicated in `[1, 1, 2]` it silently
skips both occurrences and returns `some 2` — it never aborts. -/
theorem C4_no_panic_on_bad_inputs :
    derive_interpolating_value Zp [1, 2] 3 = some 1 ∧
      derive_interpolating_value Zp [1, 1, 2] 1 = some 2 := by
  decide

/-- C5 (amended): `H1`, `H3`, `H4` and `H5` hash the context string, then
their tag (`"rho"`, `"nonce"`, `"msg"`, `"com"` respectively), then the
input; `H2` hashes the raw input alone, with no context string and no tag
(matching RFC 9591's FROST(Ed25519, SHA-512), where `H2 = SHA-512`
unprefixed for Ed25519 compatibility).  For every input, the five hashed
byte strings are pairwise distinct. -/
theorem C5_hash_inputs :
    (∀ sha m, H1 sha m = sha (contextString ++ strBytes "rho" ++ m)) ∧
    (∀ sha m, H2 sha m = sha m) ∧
    (∀ sha m, H3 sha m = sha (contextString ++ strBytes "nonce" ++ m)) ∧
    (∀ sha m, H4 sha m = sha (contextString ++ strBytes "msg" ++ m)) ∧
    (∀ sha m, H5 sha m = sha (contextString ++ strBytes "com" ++ m)) ∧
    (∀ m : List Nat,
      H1input m ≠ H2input m ∧ H1input m ≠ H3input m ∧ H1input m ≠ H4input m ∧
      H1input m ≠ H5input m ∧ H2input m ≠ H3input m ∧ H2input m ≠ H4input m ∧
      H2input m ≠ H5input m ∧ H3input m ≠ H4input m ∧ H3input m ≠ H5input m ∧
      H4input m ≠ H5input m) := by
  have hlen : ∀ a b : List Nat, a.length ≠ b.length → a ≠ b := by
    intro a b h he
    exact h (he ▸ rfl)
  have hct : contextString.length = 23 := by decide
  have htag : ∀ pre1 pre2 : List Nat, pre1 ≠ pre2 →
      ∀ m : List Nat, (contextString ++ pre1) ++ m ≠ (contextString ++ pre2) ++ m := by
    intro pre1 pre2 hne m he
    exact hne (List.append_cancel_left (List.append_cancel_right he))
  refine ⟨fun sha m => rfl, fun sha m => rfl, fun sha m => rfl, fun sha m => rfl,
    fun sha m => rfl, fun m => ?_⟩
  have hL1 : (H1input m).length = 26 + m.length := by
    simp [H1input, hct, strBytes]
    omega
  have hL2 : (H2input m).length = m.length := rfl
  have hL3 : (H3input m).length = 28 + m.length := by
    simp [H3input, hct, strBytes]
    omega
  have hL4 : (H4input m).length = 26 + m.length := by
    simp [H4input, hct, strBytes]
    omega
  have hL5 : (H5input m).length = 26 + m.length := by
    simp [H5input, hct, strBytes]
    omega
  refine ⟨hlen _ _ (by omega), hlen _ _ (by omega), ?_, ?_,
    hlen _ _ (by omega), hlen _ _ (by omega), hlen _ _ (by omega),
    hlen _ _ (by omega), hlen _ _ (by omega), ?_⟩
  · exact htag (strBytes "rho") (strBytes "msg") (by decide) m
  · exact htag (strBytes "rho") (strBytes "com") (by decide) m
  · exact htag (strBytes "msg") (strBytes "com") (by decide) m

/-- Counterexample for C5 as stated: the claim says every `Hi(m)` hashes the
context string first (for `H2`, with no tag in between); but the byte string
the code hashes in `H2` is the bare input, which on `m = []` differs from
the claimed `CONTEXT_STRING ++ []`. -/
theorem C5_counterexample : H2input [] ≠ H2claimedInput [] := by
  decide

/-- C6: `compute_binding_factors` returns exactly one binding factor per
input commitment, in input order (same identifiers, same order), and the
factor for identifier `id` is
`H1(encode(group_pk) ‖ H4(msg) ‖ H5(encoded commitment list) ‖ encode(id))`
reduced into the scalar field.  The closed form as a `List.map` of a
function of the inputs is also what makes the computation deterministic:
equal `(group_pk, commitments, msg)` give equal lists. -/
theorem C6_binding_factors_spec
    (F : Type) [Field F] [DecidableEq F]
    (G : Type) [AddCommGroup G] [Module F G] [DecidableEq G]
    (sha : List Nat → List Nat) (serF : F → List Nat) (serG : G → List Nat)
    (group_pk : G) (cl : List (F × G × G)) (msg : List Nat) :
    compute_binding_factors F G sha serF serG group_pk cl msg
        = cl.map (fun c => (c.1, from_le_bytes_mod_order F (H1 sha
            ((serG group_pk ++ H4 sha msg ++
              H5 sha (encode_group_commitment_list F G serF serG cl)) ++ serF c.1)))) ∧
      (compute_binding_factors F G sha serF serG group_pk cl msg).map Prod.fst
        = cl.map Prod.fst ∧
      (compute_binding_factors F G sha serF serG group_pk cl msg).length = cl.length := by
  refine ⟨compute_binding_factors_eq_map F G sha serF serG group_pk cl msg, ?_, ?_⟩
  · rw [compute_binding_factors_eq_map, List.map_map]
    rfl
  · rw [compute_binding_factors_eq_map, List.length_map]

/-- C7: `verify` returns `true` exactly when `g^s = R + group_pk * c`, and
it is a total boolean function (its result is always one of `true` and
`false`; a mismatched signature yields `false`, not an error). -/
theorem C7_verify_iff
    (F : Type) [Field F] [DecidableEq F]
    (G : Type) [AddCommGroup G] [Module F G] [DecidableEq G]
    (fr : Frost F G) (sig : SchnorrSignature F G) (challenge : F) :
    (Frost.verify F G fr sig challenge = true ↔
      sig.s • fr.generator = sig.R + challenge • fr.group_pk) ∧
      (Frost.verify F G fr sig challenge = true ∨
        Frost.verify F G fr sig challenge = false) := by
  constructor
  · rw [Frost.verify]
    exact decide_eq_true_iff
  · rcases Bool.eq_false_or_eq_true (Frost.verify F G fr sig challenge) with h | h
    · exact Or.inl h
    · exact Or.inr h
